import Mathlib

/-!
Verification of the `Code` component pipeline (src/src/Code.tsx): whitespace
normalization, the `highlightTree`-driven color walk, span merging, segment
re-grouping, color blending, and the style-transition state machine.

JavaScript strings are embedded as `List Char`; JS `undefined` for a missing
color is `Option.none`; code paths that throw a `TypeError` are embedded as
`Except JsErr`.
-/

/-- Embedded JS string. -/
abbrev Str := List Char

/-- Coerce a Lean string literal to the embedded string type. -/
def strL (s : String) : Str := s.data

/-- JS runtime errors that the embedded code paths can raise. -/
inductive JsErr where
  /-- `TypeError` from accessing a property of `undefined`
      (e.g. `rule.split` when `find` returned no rule). -/
  | typeErrorUndef
  /-- `TypeError` from indexing `null` (e.g. `this.oldHighlighted()[i]`
      when `oldHighlighted()` is `null`). -/
  | typeErrorNullIndex
deriving DecidableEq

/-- The JS regex class `\s` (whitespace), as used by `/^\s*$/`, `/^\s+/`
and `/\s/` in `Code.tsx`. -/
def isJsSpace (c : Char) : Bool :=
  c = ' ' || c = '\t' || c = '\n' || c = '\r' || c = '\x0b' || c = '\x0c' ||
  c = '\u00a0' || c = '\u1680' || ('\u2000' ≤ c && c ≤ '\u200a') ||
  c = '\u2028' || c = '\u2029' || c = '\u202f' || c = '\u205f' ||
  c = '\u3000' || c = '\ufeff'

/-- `code.substring(i, i + 1)`: the one-character string at index `i`
(empty past the end). -/
def charStr (code : Str) (i : Nat) : Str := (code.drop i).take 1

/-- Worker for `splitOnL`; `fuel` bounds the recursion (call sites pass the
string length, which suffices because every step consumes at least one
character). Mirrors JS `String.prototype.split` with a non-empty literal
separator: scan left to right, cut at each non-overlapping occurrence. -/
def splitOnGo (pat : Str) : Nat → Str → Str → List Str
  | _, [], acc => [acc.reverse]
  | 0, s, acc => [acc.reverse ++ s]
  | fuel + 1, c :: rest, acc =>
    if pat ≠ [] && pat.isPrefixOf (c :: rest) then
      acc.reverse :: splitOnGo pat fuel (rest.drop (pat.length - 1)) []
    else
      splitOnGo pat fuel rest (c :: acc)

/-- JS `s.split(pat)` for a literal separator `pat` (call sites use the
non-empty separators `'color:'`, `';'` and `'\n'`). -/
def splitOnL (pat s : Str) : List Str := splitOnGo pat s.length s []

/-- JS `String.prototype.trim`: strip `\s` characters from both ends. -/
def trimL (s : Str) : Str :=
  ((s.dropWhile isJsSpace).reverse.dropWhile isJsSpace).reverse

/-- JS `s.includes(pat)`: `pat` occurs as a contiguous substring of `s`. -/
def containsSub (s pat : Str) : Bool :=
  s.tails.any (fun t => pat.isPrefixOf t)

/-- `style.module.getRules().split('\n').find(rule => rule.includes(classList))`:
first ruleset line whose text contains the class list.  The ruleset is
embedded already split into lines. -/
def findRule (rules : List Str) (classList : Str) : Option Str :=
  rules.find? (fun rule => containsSub rule classList)

/-- `rule.split('color:')[1]?.split(';')[0].trim()`: the JS value of `color`
for a found rule — `none` embeds `undefined` (no `color:` in the rule),
`some s` embeds the (possibly empty) trimmed string. -/
def extractColor (rule : Str) : Option Str :=
  ((splitOnL (strL "color:") rule).get? 1).map
    (fun seg => trimL ((splitOnL (strL ";") seg).headD []))

/-- JS falsiness of the `color` variable: `undefined` or the empty string. -/
def falsy (c : Option Str) : Bool :=
  match c with
  | none => true
  | some s => s.isEmpty

/-- One entry of the `tokens` array built by `highlight`: a piece of text and
its assigned color (`none` embeds an `undefined` color). -/
structure Tok where
  token : Str
  color : Option Str
deriving DecidableEq

/-- State threaded through the `highlightTree` callback: the token array plus
the number of `useLogger().warn` calls made so far. -/
structure HLState where
  toks : List Tok
  warns : Nat
deriving DecidableEq

/-- The tokens created by the gap-filling `while` loop for indices
`[i, i + k)`: each gets its own character of `code` and the fallback color. -/
def fillFrom (code fb : Str) (i : Nat) : Nat → List Tok
  | 0 => []
  | k + 1 => ⟨charStr code i, some fb⟩ :: fillFrom code fb (i + 1) k

/-- `while (tokens.length < to) tokens.push({token: ..., color: fallback})`:
extend the token array with fallback-colored single characters up to
length `tto`. -/
def fillTo (code fb : Str) (toks : List Tok) (tto : Nat) : List Tok :=
  toks ++ fillFrom code fb toks.length (tto - toks.length)

/-- `for (let i = from; i < to; i++) tokens[i].color = color`, with `i`
tracking the position of the list head. -/
def setColorsGo (f t : Nat) (c : Option Str) : Nat → List Tok → List Tok
  | _, [] => []
  | i, tok :: rest =>
    (if f ≤ i ∧ i < t then ⟨tok.token, c⟩ else tok) :: setColorsGo f t c (i + 1) rest

/-- The body of the `highlightTree` callback for one `(from, to, classList)`
triple: resolve the class list against the ruleset (throwing like
`rule.split` on `undefined` when no line contains it), count the warning for
a falsy color, gap-fill up to `to`, then overwrite `[from, to)` with the
resolved color. -/
def hlCallback (rules : List Str) (code fb : Str) (st : HLState)
    (cb : Nat × Nat × Str) : Except JsErr HLState :=
  match findRule rules cb.2.2 with
  | none => .error .typeErrorUndef
  | some rule =>
    let color := extractColor rule
    let warns := st.warns + (if falsy color then 1 else 0)
    let filled := fillTo code fb st.toks cb.2.1
    .ok ⟨setColorsGo cb.1 cb.2.1 color 0 filled, warns⟩

/-- Sequential invocation of the callback for each triple; an exception in
one invocation propagates out of `highlightTree`. -/
def hlWalkGo (rules : List Str) (code fb : Str) (st : HLState) :
    List (Nat × Nat × Str) → Except JsErr HLState
  | [] => .ok st
  | cb :: rest =>
    match hlCallback rules code fb st cb with
    | .error e => .error e
    | .ok st' => hlWalkGo rules code fb st' rest

/-- The full `highlightTree` walk of `highlight`: the external highlighter's
callback invocations are given as the list `cbs` of
`(from, to, classList)` triples, starting from the empty token array. -/
def hlWalk (rules : List Str) (code fb : Str) (cbs : List (Nat × Nat × Str)) :
    Except JsErr HLState :=
  hlWalkGo rules code fb ⟨[], 0⟩ cbs

/-- One step of the final `reduce` of `highlight`: coalesce onto the last
accumulated token when the colors are strictly equal. -/
def mergeStep (acc : List Tok) (t : Tok) : List Tok :=
  match acc.getLast? with
  | none => [t]
  | some e =>
    if e.color = t.color then acc.dropLast ++ [⟨e.token ++ t.token, e.color⟩]
    else acc ++ [t]

/-- `tokens.reduce(...)` of `highlight`: join consecutive same-color tokens. -/
def mergeTokens (toks : List Tok) : List Tok := toks.foldl mergeStep []

/-- Concatenation of the token texts, in order. -/
def concatText (toks : List Tok) : Str := (toks.map Tok.token).flatten

/-- The whole `highlight(style)` method: the callback walk followed by the
same-color merge. -/
def highlight (rules : List Str) (code fb : Str)
    (cbs : List (Nat × Nat × Str)) : Except JsErr (List Tok) :=
  (hlWalk rules code fb cbs).map (fun st => mergeTokens st.toks)

/-- `line.replace(new RegExp('^' + indent), '')` for a literal whitespace
`indent`: strip the prefix when present, otherwise leave the line as is. -/
def stripPre (indent line : Str) : Str :=
  if indent.isPrefixOf line then line.drop indent.length else line

/-- `correctWhitespace`: return the text unchanged when the first line is not
entirely whitespace; otherwise read the second line's leading whitespace as
the indent and strip it from every line after the first (the blank first
line is dropped).  When there is no second line, `secondLine.match` throws
a `TypeError` on `undefined`. -/
def correctWhitespace (str : Str) : Except JsErr Str :=
  if !(((splitOnL (strL "\n") str).headD []).all isJsSpace) then .ok str
  else
    match (splitOnL (strL "\n") str).get? 1 with
    | none => .error .typeErrorUndef
    | some secondLine =>
      .ok (List.intercalate (strL "\n")
        (((splitOnL (strL "\n") str).drop 1).map
          (fun line => stripPre (secondLine.takeWhile isJsSpace) line)))

/-- One step of the `reduce` inside `tokens()`: a segment containing a `\s`
character is pushed as its own cluster; any other segment is concatenated
onto the last cluster (`[...a.slice(0, -1), a.slice(-1)[0].concat(i)]`).
The accumulator is never empty (the seed is `['']`), so `getLastD` is the
defined JS behavior. -/
def regroupStep (a : List Str) (i : Str) : List Str :=
  if i.any isJsSpace then a ++ [i]
  else a.dropLast ++ [a.getLastD [] ++ i]

/-- The per-span `reduce(..., [''])` of `tokens()`: re-group the segmenter's
output into drawable clusters. -/
def regroup (segs : List Str) : List Str := segs.foldl regroupStep [[]]

/-- `tokens()`: split every highlighted token with the external
`Intl.Segmenter` (passed in as `segment`), re-group the segments, and keep
the token's color on every resulting cluster. -/
def tokens (segment : Str → List Str) (hl : List Tok) : List Tok :=
  (hl.map (fun t => (regroup (segment t.token)).map (fun c => Tok.mk c t.color))).flatten

/-- Modelled from the spec: the external `Intl.Segmenter('en', 'word')`
segmentation for the text `"ab cd"` — the segments `"ab"`, `" "`, `"cd"`
(the segmenter itself is a host capability outside src/). -/
def segWordAbCd : Str → List Str :=
  fun _ => [strL "ab", strL " ", strL "cd"]

/-- Modelled from the spec: a fully parsed color of the external `Color`
class, as hue/saturation/lightness coordinates (§4.4 describes the blend as
a perceptual hue/saturation/lightness mix; the `Color` class itself is a
host capability outside src/). -/
structure ColorV where
  h : ℚ
  s : ℚ
  l : ℚ
deriving DecidableEq

/-- Linear interpolation of one channel, `amount` of the way from `a` to
`b`. -/
def mixQ (a b amount : ℚ) : ℚ := a + amount * (b - a)

/-- Modelled from the spec: `new Color(c1).mix(c2, amount, 'hsl')` —
per-channel interpolation in hsl space, `amount` of the way from `c1` to
`c2` (§4.4). -/
def mixHsl (c1 c2 : ColorV) (amount : ℚ) : ColorV :=
  ⟨mixQ c1.h c2.h amount, mixQ c1.s c2.s amount, mixQ c1.l c2.l amount⟩

/-- A token of a fully-resolved stream entering the blend, with its color as
a parsed value. -/
structure TokC where
  token : Str
  colorC : ColorV
deriving DecidableEq

/-- The blending `map` of `highlighted()`, element `i` onward of the
new-theme stream: `this.oldHighlighted()[i]` past the end of the old stream
is `undefined`, and `.color` on it throws. -/
def blendGo (oldH : List TokC) (p : ℚ) (i : Nat) :
    List TokC → Except JsErr (List TokC)
  | [] => .ok []
  | n :: rest =>
    match oldH.get? i with
    | none => .error .typeErrorUndef
    | some o =>
      (blendGo oldH p (i + 1) rest).map
        (fun r => ⟨n.token, mixHsl n.colorC o.colorC (1 - p)⟩ :: r)

/-- `highlighted()`: when `styleProgress` is `null`, pass the new-theme
stream through; otherwise blend position-wise against the old-theme stream
with amount `1 - styleProgress`.  Indexing a `null` old stream throws as
soon as one element is mapped. -/
def highlightedExc (p? : Option ℚ) (newH : List TokC)
    (oldH? : Option (List TokC)) : Except JsErr (List TokC) :=
  match p? with
  | none => .ok newH
  | some p =>
    match newH, oldH? with
    | [], _ => .ok []
    | _ :: _, none => .error .typeErrorNullIndex
    | n :: rest, some oldH => blendGo oldH p 0 (n :: rest)

/-- The transition-relevant fields of the component: the `oldStyle` and
`styleProgress` signals (both initialized to `null`) and the active `style`
signal, for an abstract style type `σ`. -/
structure TState (σ : Type) where
  oldStyle : Option σ
  styleProgress : Option ℚ
  style : σ

/-- The state changes effected by `tweenStyle`.  A generator run mutates the
signals in three synchronous bursts, each a single step here: the pre-yield
prologue (`oldStyle := style; style := value; styleProgress := 0`), the
per-frame advance of the `styleProgress` tween, and the post-yield epilogue
(`styleProgress := null; oldStyle := null`, with no yield point between the
two assignments).  A superseding `tweenStyle` call cancels the running
generator, which simply stops stepping. -/
inductive TweenStep {σ : Type} : TState σ → TState σ → Prop
  | start (st : TState σ) (v : σ) :
      TweenStep st ⟨some st.style, some 0, v⟩
  | advance (o : σ) (p q : ℚ) (s : σ) (h0 : 0 ≤ q) (h1 : q ≤ 1) :
      TweenStep ⟨some o, some p, s⟩ ⟨some o, some q, s⟩
  | finish (st : TState σ) (p : ℚ) (h : st.styleProgress = some p) :
      TweenStep st ⟨none, none, st.style⟩

/-- States reachable from the initial state (both transition signals
`null`) through `tweenStyle` steps. -/
def TweenReachable {σ : Type} (s0 : σ) (st : TState σ) : Prop :=
  Relation.ReflTransGen TweenStep ⟨none, none, s0⟩ st

theorem concatText_nil : concatText [] = [] := rfl

theorem concatText_cons (t : Tok) (toks : List Tok) :
    concatText (t :: toks) = t.token ++ concatText toks := by
  simp [concatText]

theorem concatText_append (l1 l2 : List Tok) :
    concatText (l1 ++ l2) = concatText l1 ++ concatText l2 := by
  simp [concatText]

theorem fillFrom_length (code fb : Str) :
    ∀ (k i : Nat), (fillFrom code fb i k).length = k := by
  intro k
  induction k with
  | zero => intro i; rfl
  | succ k ih => intro i; simp [fillFrom, ih]

theorem fillFrom_concat (code fb : Str) :
    ∀ (k i : Nat), concatText (fillFrom code fb i k) = (code.drop i).take k := by
  intro k
  induction k with
  | zero => intro i; simp [fillFrom, concatText]
  | succ k ih =>
    intro i
    rw [fillFrom, concatText_cons, ih, charStr, show k + 1 = 1 + k by omega,
      List.take_add]
    congr 1
    rw [List.drop_drop, Nat.add_comm]

theorem fillFrom_getElem? (code fb : Str) :
    ∀ (k i j : Nat),
      (fillFrom code fb i k)[j]? =
        if j < k then some ⟨charStr code (i + j), some fb⟩ else none := by
  intro k
  induction k with
  | zero => intro i j; simp [fillFrom]
  | succ k ih =>
    intro i j
    cases j with
    | zero => simp [fillFrom]
    | succ j =>
      rw [fillFrom, List.getElem?_cons_succ, ih]
      have : i + 1 + j = i + (j + 1) := by omega
      simp [this, Nat.succ_lt_succ_iff]

theorem setColorsGo_length (f t : Nat) (c : Option Str) :
    ∀ (toks : List Tok) (i : Nat), (setColorsGo f t c i toks).length = toks.length := by
  intro toks
  induction toks with
  | nil => intro i; rfl
  | cons tok rest ih => intro i; simp [setColorsGo, ih]

theorem setColorsGo_map_token (f t : Nat) (c : Option Str) :
    ∀ (toks : List Tok) (i : Nat),
      (setColorsGo f t c i toks).map Tok.token = toks.map Tok.token := by
  intro toks
  induction toks with
  | nil => intro i; rfl
  | cons tok rest ih =>
    intro i
    simp only [setColorsGo, List.map_cons, ih]
    congr 1
    split <;> rfl

theorem setColorsGo_concat (f t : Nat) (c : Option Str) (toks : List Tok) (i : Nat) :
    concatText (setColorsGo f t c i toks) = concatText toks := by
  rw [concatText, setColorsGo_map_token, concatText]

theorem setColorsGo_getElem? (f t : Nat) (c : Option Str) :
    ∀ (toks : List Tok) (j i : Nat),
      (setColorsGo f t c j toks)[i]? =
        toks[i]?.map
          (fun tok => if f ≤ j + i ∧ j + i < t then ⟨tok.token, c⟩ else tok) := by
  intro toks
  induction toks with
  | nil => intro j i; simp [setColorsGo]
  | cons tok rest ih =>
    intro j i
    cases i with
    | zero => simp [setColorsGo]
    | succ i =>
      rw [setColorsGo, List.getElem?_cons_succ, List.getElem?_cons_succ, ih]
      have : j + 1 + i = j + (i + 1) := by omega
      simp [this]

theorem fillTo_length (code fb : Str) (toks : List Tok) (tto : Nat) :
    (fillTo code fb toks tto).length = toks.length + (tto - toks.length) := by
  simp [fillTo, fillFrom_length]

theorem fillTo_concat (code fb : Str) (toks : List Tok) (tto : Nat) :
    concatText (fillTo code fb toks tto) =
      concatText toks ++ (code.drop toks.length).take (tto - toks.length) := by
  rw [fillTo, concatText_append, fillFrom_concat]

/-- The token array is a dense per-character prefix of `code`: its texts
concatenate to the first `toks.length` characters. -/
def TextCover (code : Str) (toks : List Tok) : Prop :=
  concatText toks = code.take toks.length

theorem hlCallback_ok {rules : List Str} {code fb : Str} {st : HLState}
    {cb : Nat × Nat × Str} {st' : HLState}
    (h : hlCallback rules code fb st cb = .ok st') :
    ∃ rule, findRule rules cb.2.2 = some rule ∧
      st' = ⟨setColorsGo cb.1 cb.2.1 (extractColor rule) 0 (fillTo code fb st.toks cb.2.1),
             st.warns + (if falsy (extractColor rule) then 1 else 0)⟩ := by
  unfold hlCallback at h
  cases hf : findRule rules cb.2.2 with
  | none => rw [hf] at h; exact absurd h (by simp)
  | some rule =>
    rw [hf] at h
    simp only [Except.ok.injEq] at h
    exact ⟨rule, rfl, h.symm⟩

theorem hlCallback_facts {rules : List Str} {code fb : Str} {st : HLState}
    {cb : Nat × Nat × Str} {st' : HLState}
    (h : hlCallback rules code fb st cb = .ok st') :
    st.toks.length ≤ st'.toks.length ∧ cb.2.1 ≤ st'.toks.length ∧
      (TextCover code st.toks → TextCover code st'.toks) := by
  obtain ⟨rule, -, rfl⟩ := hlCallback_ok h
  refine ⟨?_, ?_, ?_⟩
  · simp [setColorsGo_length, fillTo_length]
  · simp only [setColorsGo_length, fillTo_length]; omega
  · intro hc
    unfold TextCover at hc ⊢
    rw [setColorsGo_concat, fillTo_concat, hc, setColorsGo_length, fillTo_length,
      ← List.take_add]

theorem hlWalkGo_facts {rules : List Str} {code fb : Str} :
    ∀ (cbs : List (Nat × Nat × Str)) (st0 st : HLState),
      hlWalkGo rules code fb st0 cbs = .ok st →
      st0.toks.length ≤ st.toks.length ∧
        (∀ cb ∈ cbs, cb.2.1 ≤ st.toks.length) ∧
        (TextCover code st0.toks → TextCover code st.toks) := by
  intro cbs
  induction cbs with
  | nil =>
    intro st0 st h
    simp only [hlWalkGo, Except.ok.injEq] at h
    subst h
    exact ⟨Nat.le_refl _, by simp, fun hc => hc⟩
  | cons cb rest ih =>
    intro st0 st h
    rw [hlWalkGo] at h
    cases hc : hlCallback rules code fb st0 cb with
    | error e => rw [hc] at h; exact absurd h (by simp)
    | ok st1 =>
      rw [hc] at h
      obtain ⟨h1, h2, h3⟩ := hlCallback_facts hc
      obtain ⟨g1, g2, g3⟩ := ih st1 st h
      refine ⟨Nat.le_trans h1 g1, ?_, fun hcov => g3 (h3 hcov)⟩
      intro c hcmem
      rcases List.mem_cons.mp hcmem with rfl | hmem
      · exact Nat.le_trans h2 g1
      · exact g2 c hmem

theorem hlWalk_facts {rules : List Str} {code fb : Str}
    {cbs : List (Nat × Nat × Str)} {st : HLState}
    (h : hlWalk rules code fb cbs = .ok st) :
    (∀ cb ∈ cbs, cb.2.1 ≤ st.toks.length) ∧ TextCover code st.toks := by
  obtain ⟨-, h2, h3⟩ := hlWalkGo_facts cbs ⟨[], 0⟩ st h
  exact ⟨h2, h3 (by simp [TextCover, concatText])⟩

theorem mergeStep_concat (acc : List Tok) (t : Tok) :
    concatText (mergeStep acc t) = concatText acc ++ t.token := by
  rcases List.eq_nil_or_concat acc with rfl | ⟨as, e, rfl⟩
  · simp [mergeStep, concatText]
  · rw [List.concat_eq_append, mergeStep, List.getLast?_concat]
    split
    · rename_i heq
      simp at heq
    · rename_i e2 heq
      injection heq with he
      subst he
      split
      · rw [List.dropLast_concat]
        simp [concatText_append, concatText_cons, concatText_nil]
      · simp [concatText_append, concatText_cons, concatText_nil]

theorem mergeFold_concat :
    ∀ (toks acc : List Tok),
      concatText (toks.foldl mergeStep acc) = concatText acc ++ concatText toks := by
  intro toks
  induction toks with
  | nil => intro acc; simp [concatText]
  | cons t rest ih =>
    intro acc
    rw [List.foldl_cons, ih, mergeStep_concat, concatText_cons,
      List.append_assoc]

theorem mixHsl_zero (a b : ColorV) : mixHsl a b 0 = a := by
  cases a
  simp only [mixHsl, mixQ, ColorV.mk.injEq]
  refine ⟨by ring, by ring, by ring⟩

theorem mixHsl_one (a b : ColorV) : mixHsl a b 1 = b := by
  cases a; cases b
  simp only [mixHsl, mixQ, ColorV.mk.injEq]
  refine ⟨by ring, by ring, by ring⟩

theorem blendGo_eq (os : List TokC) (p : ℚ) :
    ∀ (ns : List TokC) (i : Nat), i + ns.length ≤ os.length →
      blendGo os p i ns =
        .ok ((ns.zip (os.drop i)).map
          (fun z => ⟨z.1.token, mixHsl z.1.colorC z.2.colorC (1 - p)⟩)) := by
  intro ns
  induction ns with
  | nil => intro i h; simp [blendGo]
  | cons n rest ih =>
    intro i h
    have hi : i < os.length := by simp at h; omega
    have hrest : (i + 1) + rest.length ≤ os.length := by simp at h; omega
    rw [List.drop_eq_getElem_cons hi]
    simp only [blendGo, List.get?_eq_getElem?, List.getElem?_eq_getElem hi,
      ih (i + 1) hrest, List.zip_cons_cons, List.map_cons]
    rfl

theorem blendGo_error (os : List TokC) (p : ℚ) :
    ∀ (ns : List TokC) (i : Nat) (e : JsErr),
      blendGo os p i ns = .error e → e = .typeErrorUndef := by
  intro ns
  induction ns with
  | nil => intro i e h; simp [blendGo] at h
  | cons n rest ih =>
    intro i e h
    rw [blendGo] at h
    cases ho : os.get? i with
    | none =>
      rw [ho] at h
      simp only [Except.error.injEq] at h
      exact h.symm
    | some o =>
      rw [ho] at h
      cases hb : blendGo os p (i + 1) rest with
      | error e2 =>
        rw [hb] at h
        simp only [Except.map, Except.error.injEq] at h
        exact h ▸ ih (i + 1) e2 hb
      | ok r =>
        rw [hb] at h
        simp [Except.map] at h

theorem tweenReachable_inv {σ : Type} (s0 : σ) (st : TState σ)
    (h : TweenReachable s0 st) : st.styleProgress.isSome → st.oldStyle.isSome := by
  induction h with
  | refl => intro hp; simp at hp
  | tail hab hbc ih =>
    cases hbc with
    | start st v => intro hp; simp
    | advance o p q s h0 h1 => intro hp; simp
    | finish st p hsp => intro hp; simp at hp

/-- C8: for every per-character token list, concatenating the span texts
produced by the merging fold (coalescing consecutive entries with strictly
equal color strings) equals the concatenation of the per-character texts
before merging. -/
theorem c8_merge_lossless (toks : List Tok) :
    concatText (mergeTokens toks) = concatText toks := by
  rw [mergeTokens, mergeFold_concat, concatText_nil, List.nil_append]

/-- C9: for every text whose first line is not entirely whitespace,
`correctWhitespace` returns the text unchanged, and applying it a second
time to its own output whose first line is non-blank is a no-op. -/
theorem c9_normalize_noop (str : Str)
    (h : ((splitOnL (strL "\n") str).headD []).all isJsSpace = false) :
    correctWhitespace str = .ok str ∧
      ∀ out : Str, correctWhitespace str = .ok out →
        ((splitOnL (strL "\n") out).headD []).all isJsSpace = false →
        correctWhitespace out = .ok out := by
  have hs : (!(((splitOnL (strL "\n") str).headD []).all isJsSpace)) = true := by
    rw [h]; rfl
  refine ⟨by unfold correctWhitespace; rw [hs]; rfl, ?_⟩
  intro out hout hall
  have hs2 : (!(((splitOnL (strL "\n") out).headD []).all isJsSpace)) = true := by
    rw [hall]; rfl
  unfold correctWhitespace
  rw [hs2]
  rfl

/-- Witness for C9 at the concrete text `"foo\nbar"`. -/
theorem c9_witness :
    ((splitOnL (strL "\n") (strL "foo\nbar")).headD []).all isJsSpace = false ∧
      correctWhitespace (strL "foo\nbar") = .ok (strL "foo\nbar") :=
  ⟨by decide, (c9_normalize_noop (strL "foo\nbar") (by decide)).1⟩

/-- C4 counterexample: with the fallback color `#c9d1d9` and a highlighter
that never calls back, `highlight` on the non-empty text `"ab"` returns the
empty token stream, which does not cover the text. -/
theorem c4_counterexample :
    highlight [] (strL "ab") (strL "#c9d1d9") [] = .ok [] ∧
      concatText [] ≠ strL "ab" :=
  ⟨rfl, by decide⟩

/-- C4 amended: for every non-empty text and any theme, a highlighter that
never invokes the callback makes the walk produce the empty token array and
`highlight` return the empty stream (gap-filling only happens inside
callbacks, so nothing is ever emitted). -/
theorem c4_empty_highlighter (rules : List Str) (code fb : Str)
    (_hne : code ≠ []) :
    hlWalk rules code fb [] = .ok ⟨[], 0⟩ ∧
      highlight rules code fb [] = .ok [] :=
  ⟨rfl, rfl⟩

/-- Witness for C4 at the concrete text `"ab"`. -/
theorem c4_witness :
    strL "ab" ≠ [] ∧
      highlight [] (strL "ab") (strL "#c9d1d9") [] = .ok [] :=
  ⟨by decide, (c4_empty_highlighter [] (strL "ab") (strL "#c9d1d9") (by decide)).2⟩

/-- C3: evaluating the `tokens()` splitting and re-grouping on the claim's
own input `"ab cd"` (one uniform-color span, word segments `"ab"`, `" "`,
`"cd"`): the reduce glues the non-space segment `"cd"` onto the preceding
whitespace cluster, producing `["ab", " cd"]` rather than the
`["ab", " ", "cd"]` the claim states. -/
theorem c3_regroup_eval :
    (tokens segWordAbCd [⟨strL "ab cd", some (strL "#c9d1d9")⟩]).map Tok.token =
        [strL "ab", strL " cd"] ∧
      [strL "ab", strL " cd"] ≠ [strL "ab", strL " ", strL "cd"] := by
  refine ⟨by decide, by decide⟩

/-- C1 counterexample: for the range `(0, 1)` classified `"kw"` against a
ruleset whose matching rule has no `color:` property, the callback does
emit one warning, but the character's color becomes the unresolved value
(`undefined`), not the fallback `#abc` assigned during gap-filling. -/
theorem c1_counterexample :
    hlCallback [strL ".kw background:red"] (strL "a") (strL "#abc") ⟨[], 0⟩
        (0, 1, strL "kw") = .ok ⟨[⟨strL "a", none⟩], 1⟩ ∧
      (none : Option Str) ≠ some (strL "#abc") := by
  refine ⟨rfl, by decide⟩

/-- C1 amended: when no ruleset line contains the class list, the callback
throws (no warning); when a line matches but resolves to a falsy color
(`undefined` or empty), exactly one warning is counted and every character
of `[from, to)` has its color overwritten with that falsy resolved value,
replacing the gap-fill fallback. -/
theorem c1_unresolved_class (rules : List Str) (code fb : Str) (st : HLState)
    (f t : Nat) (cls : Str) :
    (findRule rules cls = none →
      hlCallback rules code fb st (f, t, cls) = .error .typeErrorUndef) ∧
    (∀ rule, findRule rules cls = some rule → falsy (extractColor rule) = true →
      ∃ st', hlCallback rules code fb st (f, t, cls) = .ok st' ∧
        st'.warns = st.warns + 1 ∧
        ∀ i, f ≤ i → i < t →
          st'.toks[i]?.map Tok.color = some (extractColor rule)) := by
  constructor
  · intro hn
    unfold hlCallback
    simp [hn]
  · intro rule hr hfal
    refine ⟨⟨setColorsGo f t (extractColor rule) 0 (fillTo code fb st.toks t),
      st.warns + 1⟩, ?_, rfl, ?_⟩
    · unfold hlCallback
      simp [hr, hfal]
    · intro i hfi hit
      have hlen : i < (fillTo code fb st.toks t).length := by
        rw [fillTo_length]; omega
      have c1 : f ≤ 0 + i ∧ 0 + i < t := by omega
      have c2 : f ≤ i ∧ i < t := by omega
      rw [setColorsGo_getElem?, List.getElem?_eq_getElem hlen]
      simp [c1, c2]

/-- Witness for C1 at the concrete colorless rule `".kw background:red"`. -/
theorem c1_witness :
    (findRule [strL ".kw background:red"] (strL "kw") =
        some (strL ".kw background:red") ∧
      falsy (extractColor (strL ".kw background:red")) = true) ∧
    (∃ st', hlCallback [strL ".kw background:red"] (strL "a") (strL "#abc")
        ⟨[], 0⟩ (0, 1, strL "kw") = .ok st' ∧
      st'.warns = 0 + 1 ∧
      ∀ i, 0 ≤ i → i < 1 →
        st'.toks[i]?.map Tok.color =
          some (extractColor (strL ".kw background:red"))) :=
  ⟨⟨by decide, by decide⟩,
    (c1_unresolved_class [strL ".kw background:red"] (strL "a") (strL "#abc")
      ⟨[], 0⟩ 0 1 (strL "kw")).2 (strL ".kw background:red") (by decide)
      (by decide)⟩

/-- C2 counterexample: on the text `"ab"` with a highlighter that emits no
triples, the walk completes with an empty token array whose concatenation
is not the text — coverage fails without a range reaching the text
length. -/
theorem c2_counterexample :
    hlWalk [] (strL "ab") (strL "#c9d1d9") [] = .ok ⟨[], 0⟩ ∧
      concatText [] ≠ strL "ab" :=
  ⟨rfl, by decide⟩

/-- C2 amended: whenever the walk completes without throwing and some
emitted triple's `end` is at least the text length, concatenating the
per-character token texts in index order reproduces the text exactly, and
every index in `[0, textLength)` has exactly one token entry (the array is
at least text-length long). -/
theorem c2_coverage (rules : List Str) (code fb : Str)
    (cbs : List (Nat × Nat × Str)) (st : HLState)
    (hok : hlWalk rules code fb cbs = .ok st)
    (hend : ∃ cb ∈ cbs, code.length ≤ cb.2.1) :
    concatText st.toks = code ∧ code.length ≤ st.toks.length := by
  obtain ⟨hends, hcov⟩ := hlWalk_facts hok
  obtain ⟨cb, hmem, hle⟩ := hend
  have hlen : code.length ≤ st.toks.length := le_trans hle (hends cb hmem)
  refine ⟨?_, hlen⟩
  rw [TextCover] at hcov
  rw [hcov, List.take_of_length_le hlen]

/-- Witness for C2 at the concrete two-character text `"ab"` fully covered
by one triple. -/
theorem c2_witness :
    (hlWalk [strL ".a color:#111;"] (strL "ab") (strL "#fff")
        [(0, 2, strL "a")] =
      .ok ⟨[⟨strL "a", some (strL "#111")⟩, ⟨strL "b", some (strL "#111")⟩], 0⟩) ∧
      concatText [⟨strL "a", some (strL "#111")⟩, ⟨strL "b", some (strL "#111")⟩] =
          strL "ab" ∧
        (strL "ab").length ≤
          ([⟨strL "a", some (strL "#111")⟩,
            ⟨strL "b", some (strL "#111")⟩] : List Tok).length :=
  ⟨rfl,
    c2_coverage [strL ".a color:#111;"] (strL "ab") (strL "#fff")
      [(0, 2, strL "a")]
      ⟨[⟨strL "a", some (strL "#111")⟩, ⟨strL "b", some (strL "#111")⟩], 0⟩
      rfl ⟨(0, 2, strL "a"), by decide, by decide⟩⟩

theorem hlWalkGo_total {rules : List Str} {code fb : Str} :
    ∀ (cbs : List (Nat × Nat × Str)) (st0 : HLState),
      (∀ cb ∈ cbs, findRule rules cb.2.2 ≠ none) →
      ∃ st, hlWalkGo rules code fb st0 cbs = .ok st := by
  intro cbs
  induction cbs with
  | nil => intro st0 h; exact ⟨st0, rfl⟩
  | cons cb rest ih =>
    intro st0 h
    cases hf : findRule rules cb.2.2 with
    | none => exact absurd hf (h cb (List.mem_cons_self cb rest))
    | some rule =>
      obtain ⟨st, hst⟩ := ih
        ⟨setColorsGo cb.1 cb.2.1 (extractColor rule) 0 (fillTo code fb st0.toks cb.2.1),
          st0.warns + (if falsy (extractColor rule) then 1 else 0)⟩
        (fun c hc => h c (List.mem_cons_of_mem cb hc))
      refine ⟨st, ?_⟩
      rw [hlWalkGo]
      simp only [hlCallback, hf]
      exact hst

/-- C5 counterexample: `correctWhitespace` on the empty text (whose only
line is blank and which has no second line) throws a `TypeError` instead of
degrading gracefully. -/
theorem c5_counterexample :
    correctWhitespace [] = .error .typeErrorUndef := rfl

/-- C5 amended: the pipeline operations are total except for two throwing
paths — whitespace normalization requires a non-blank first line or a
second line to exist, and the color-resolution walk requires every
callback's class list to be contained in some ruleset line; blending is
total on a non-null old stream at least as long as the new one (merging and
splitting are plain folds, total by construction). -/
theorem c5_totality (str : Str) (rules : List Str) (code fb : Str)
    (cbs : List (Nat × Nat × Str)) (p : ℚ) (newH oldH : List TokC)
    (h1 : ((splitOnL (strL "\n") str).headD []).all isJsSpace = false ∨
      2 ≤ (splitOnL (strL "\n") str).length)
    (h2 : ∀ cb ∈ cbs, findRule rules cb.2.2 ≠ none)
    (h3 : newH.length ≤ oldH.length) :
    (∃ out, correctWhitespace str = .ok out) ∧
    (∃ st, hlWalk rules code fb cbs = .ok st) ∧
    (∃ r, highlightedExc (some p) newH (some oldH) = .ok r) := by
  refine ⟨?_, hlWalkGo_total cbs ⟨[], 0⟩ h2, ?_⟩
  · by_cases hall : ((splitOnL (strL "\n") str).headD []).all isJsSpace = true
    · rcases h1 with h | h
      · rw [hall] at h; cases h
      · have hsl : ∃ x, (splitOnL (strL "\n") str).get? 1 = some x := by
          rw [List.get?_eq_getElem?]
          exact ⟨_, List.getElem?_eq_getElem (by omega)⟩
        obtain ⟨sl, hsl⟩ := hsl
        refine ⟨List.intercalate (strL "\n")
          (((splitOnL (strL "\n") str).drop 1).map
            (fun line => stripPre (sl.takeWhile isJsSpace) line)), ?_⟩
        unfold correctWhitespace
        rw [hall, hsl]
        rfl
    · have hfalse : ((splitOnL (strL "\n") str).headD []).all isJsSpace = false :=
        Bool.eq_false_iff.mpr hall
      have hs : (!(((splitOnL (strL "\n") str).headD []).all isJsSpace)) = true := by
        rw [hfalse]; rfl
      exact ⟨str, by unfold correctWhitespace; rw [hs]; rfl⟩
  · cases newH with
    | nil => exact ⟨[], rfl⟩
    | cons n rest =>
      have hb := blendGo_eq oldH p (n :: rest) 0 (by simp at h3 ⊢; omega)
      exact ⟨_, hb⟩

/-- Witness for C5 at concrete inputs on all three non-throwing paths. -/
theorem c5_witness :
    (((splitOnL (strL "\n") (strL "x")).headD []).all isJsSpace = false ∧
      (∀ cb ∈ [((0 : Nat), (1 : Nat), strL "q")],
        findRule [strL "q color:red;"] cb.2.2 ≠ none) ∧
      ([] : List TokC).length ≤ ([] : List TokC).length) ∧
    ((∃ out, correctWhitespace (strL "x") = .ok out) ∧
      (∃ st, hlWalk [strL "q color:red;"] (strL "q") (strL "#fff")
        [((0 : Nat), (1 : Nat), strL "q")] = .ok st) ∧
      (∃ r, highlightedExc (some 0) [] (some ([] : List TokC)) = .ok r)) :=
  ⟨⟨by decide, by decide, by decide⟩,
    c5_totality (strL "x") [strL "q color:red;"] (strL "q") (strL "#fff")
      [((0 : Nat), (1 : Nat), strL "q")] 0 [] []
      (Or.inl (by decide)) (by decide) (by decide)⟩

theorem zipTok_self :
    ∀ (ns os : List TokC), ns.length ≤ os.length →
      (ns.zip os).map (fun z => (⟨z.1.token, z.1.colorC⟩ : TokC)) = ns := by
  intro ns
  induction ns with
  | nil => intro os h; simp
  | cons n rest ih =>
    intro os h
    cases os with
    | nil => simp at h
    | cons o orest =>
      simp only [List.zip_cons_cons, List.map_cons]
      rw [ih orest (by simp at h; omega)]

theorem zipTok_old_colors :
    ∀ (os ns : List TokC), os.length ≤ ns.length →
      ((ns.zip os).map (fun z => (⟨z.1.token, z.2.colorC⟩ : TokC))).map TokC.colorC =
        os.map TokC.colorC := by
  intro os
  induction os with
  | nil => intro ns h; simp
  | cons o orest ih =>
    intro ns h
    cases ns with
    | nil => simp at h
    | cons n nrest =>
      simp only [List.zip_cons_cons, List.map_cons]
      rw [ih nrest (by simp at h; omega)]

theorem zipTok_new_tokens :
    ∀ (ns os : List TokC), ns.length ≤ os.length →
      ((ns.zip os).map (fun z => (⟨z.1.token, z.2.colorC⟩ : TokC))).map TokC.token =
        ns.map TokC.token := by
  intro ns
  induction ns with
  | nil => intro os h; simp
  | cons n rest ih =>
    intro os h
    cases os with
    | nil => simp at h
    | cons o orest =>
      simp only [List.zip_cons_cons, List.map_cons]
      rw [ih orest (by simp at h; omega)]

/-- C6: for equally-segmented old- and new-theme streams, `highlighted()` at
`styleProgress = 0` yields exactly the old-theme color at every position
(blend amount `1 - 0 = 1` toward the old stream), and at
`styleProgress = 1` returns the new-theme stream itself. -/
theorem c6_blend_endpoints (newH oldH : List TokC)
    (h : newH.length = oldH.length) :
    highlightedExc (some 1) newH (some oldH) = .ok newH ∧
    ∃ r, highlightedExc (some 0) newH (some oldH) = .ok r ∧
      r.map TokC.colorC = oldH.map TokC.colorC ∧
      r.map TokC.token = newH.map TokC.token := by
  cases newH with
  | nil =>
    have hzero : oldH = [] := List.length_eq_zero.mp (by simpa using h.symm)
    subst hzero
    exact ⟨rfl, [], rfl, rfl, rfl⟩
  | cons n rest =>
    have hle : (n :: rest).length ≤ oldH.length := by omega
    have hlen : 0 + (n :: rest).length ≤ oldH.length := by omega
    constructor
    · have hb := blendGo_eq oldH 1 (n :: rest) 0 hlen
      rw [show highlightedExc (some 1) (n :: rest) (some oldH) =
          blendGo oldH 1 0 (n :: rest) from rfl, hb]
      congr 1
      have h10 : (1 : ℚ) - 1 = 0 := by norm_num
      simp only [h10, mixHsl_zero, List.drop_zero]
      exact zipTok_self (n :: rest) oldH hle
    · have hb := blendGo_eq oldH 0 (n :: rest) 0 hlen
      have h01 : (1 : ℚ) - 0 = 1 := by norm_num
      have hb2 : highlightedExc (some 0) (n :: rest) (some oldH) =
          .ok (((n :: rest).zip (oldH.drop 0)).map
            (fun z => ⟨z.1.token, mixHsl z.1.colorC z.2.colorC (1 - 0)⟩)) := hb
      refine ⟨((n :: rest).zip (oldH.drop 0)).map
          (fun z => ⟨z.1.token, mixHsl z.1.colorC z.2.colorC (1 - 0)⟩), hb2, ?_, ?_⟩
      · simp only [h01, mixHsl_one, List.drop_zero]
        exact zipTok_old_colors oldH (n :: rest) (by omega)
      · simp only [h01, mixHsl_one, List.drop_zero]
        exact zipTok_new_tokens (n :: rest) oldH hle

/-- Witness for C6 at concrete one-token streams. -/
theorem c6_witness :
    highlightedExc (some 1) [⟨strL "x", ⟨0, 0, 0⟩⟩] (some [⟨strL "x", ⟨1, 1, 1⟩⟩]) =
        .ok [⟨strL "x", ⟨0, 0, 0⟩⟩] ∧
      ∃ r, highlightedExc (some 0) [⟨strL "x", ⟨0, 0, 0⟩⟩]
          (some [⟨strL "x", ⟨1, 1, 1⟩⟩]) = .ok r ∧
        r.map TokC.colorC = [⟨strL "x", ⟨1, 1, 1⟩⟩].map TokC.colorC ∧
        r.map TokC.token = [⟨strL "x", ⟨0, 0, 0⟩⟩].map TokC.token :=
  c6_blend_endpoints [⟨strL "x", ⟨0, 0, 0⟩⟩] [⟨strL "x", ⟨1, 1, 1⟩⟩] rfl

/-- C7: for a highlighter that emits `(0, 10, "a")` then `(3, 6, "b")` over a
text of length at least 10, the walk assigns the color resolved for `"b"`
to indices 3–5 and the color resolved for `"a"` to indices 0–2 and 6–9:
the last triple covering an index wins. -/
theorem c7_last_triple_wins (rules : List Str) (code fb : Str) (ra rb : Str)
    (hra : findRule rules (strL "a") = some ra)
    (hrb : findRule rules (strL "b") = some rb)
    (_hlen : 10 ≤ code.length) :
    ∃ st, hlWalk rules code fb [(0, 10, strL "a"), (3, 6, strL "b")] = .ok st ∧
      (∀ i, 3 ≤ i → i < 6 →
        st.toks[i]?.map Tok.color = some (extractColor rb)) ∧
      (∀ i, i < 3 ∨ 6 ≤ i ∧ i < 10 →
        st.toks[i]?.map Tok.color = some (extractColor ra)) := by
  have hft1 : fillTo code fb [] 10 = fillFrom code fb 0 10 := rfl
  have hlen1 :
      (setColorsGo 0 10 (extractColor ra) 0 (fillTo code fb [] 10)).length = 10 := by
    rw [setColorsGo_length, hft1, fillFrom_length]
  have hft2 : fillTo code fb
      (setColorsGo 0 10 (extractColor ra) 0 (fillTo code fb [] 10)) 6 =
      setColorsGo 0 10 (extractColor ra) 0 (fillTo code fb [] 10) := by
    rw [fillTo, hlen1]
    norm_num [fillFrom]
  refine ⟨⟨setColorsGo 3 6 (extractColor rb) 0
      (fillTo code fb (setColorsGo 0 10 (extractColor ra) 0 (fillTo code fb [] 10)) 6),
    0 + (if falsy (extractColor ra) then 1 else 0) +
      (if falsy (extractColor rb) then 1 else 0)⟩, ?_, ?_, ?_⟩
  · simp only [hlWalk, hlWalkGo, hlCallback, hra, hrb]
  · intro i h3 h6
    have hi10 : i < 10 := by omega
    have ca1 : (0 : Nat) ≤ 0 + i ∧ 0 + i < 10 := by omega
    have cb1 : 3 ≤ 0 + i ∧ 0 + i < 6 := by omega
    have cb2 : 3 ≤ i ∧ i < 6 := by omega
    rw [hft2, setColorsGo_getElem?, setColorsGo_getElem?, hft1, fillFrom_getElem?,
      if_pos hi10]
    simp [ca1, cb1, cb2, hi10]
  · intro i hcase
    have hi10 : i < 10 := by omega
    have ca1 : (0 : Nat) ≤ 0 + i ∧ 0 + i < 10 := by omega
    have ncb : ¬(3 ≤ 0 + i ∧ 0 + i < 6) := by omega
    have ncb2 : ¬(3 ≤ i ∧ i < 6) := by omega
    rw [hft2, setColorsGo_getElem?, setColorsGo_getElem?, hft1, fillFrom_getElem?,
      if_pos hi10]
    simp [ca1, ncb, ncb2, hi10]

/-- Witness for C7 with a concrete ruleset and ten-character text. -/
theorem c7_witness :
    (findRule [strL ".a color:#111;", strL ".b color:#222;"] (strL "a") =
        some (strL ".a color:#111;") ∧
      findRule [strL ".a color:#111;", strL ".b color:#222;"] (strL "b") =
        some (strL ".b color:#222;") ∧
      10 ≤ (strL "0123456789").length) ∧
    (∃ st, hlWalk [strL ".a color:#111;", strL ".b color:#222;"]
        (strL "0123456789") (strL "#fff")
        [(0, 10, strL "a"), (3, 6, strL "b")] = .ok st ∧
      (∀ i, 3 ≤ i → i < 6 →
        st.toks[i]?.map Tok.color = some (extractColor (strL ".b color:#222;"))) ∧
      (∀ i, i < 3 ∨ 6 ≤ i ∧ i < 10 →
        st.toks[i]?.map Tok.color = some (extractColor (strL ".a color:#111;")))) :=
  ⟨⟨by decide, by decide, by decide⟩,
    c7_last_triple_wins [strL ".a color:#111;", strL ".b color:#222;"]
      (strL "0123456789") (strL "#fff") (strL ".a color:#111;")
      (strL ".b color:#222;") (by decide) (by decide) (by decide)⟩

/-- C10: in every state reachable through the `tweenStyle` steps,
`styleProgress` is non-null only when `oldStyle` is non-null, and
consequently `highlighted()` never indexes a `null` old-theme stream while
blending is active. -/
theorem c10_transition_invariant {σ : Type} (s0 : σ) (st : TState σ)
    (h : TweenReachable s0 st) :
    (∀ p : ℚ, st.styleProgress = some p → st.oldStyle ≠ none) ∧
    (∀ (hlFn : σ → List TokC) (newH : List TokC),
      highlightedExc st.styleProgress newH (st.oldStyle.map hlFn) ≠
        .error .typeErrorNullIndex) := by
  have inv := tweenReachable_inv s0 st h
  constructor
  · intro p hp hnone
    have hsome := inv (by rw [hp]; rfl)
    rw [hnone] at hsome
    simp at hsome
  · intro hlFn newH hcon
    cases hps : st.styleProgress with
    | none => rw [hps] at hcon; simp [highlightedExc] at hcon
    | some p =>
      have hos : st.oldStyle.isSome := inv (by rw [hps]; rfl)
      obtain ⟨o, ho⟩ := Option.isSome_iff_exists.mp hos
      rw [hps, ho] at hcon
      cases newH with
      | nil => simp [highlightedExc] at hcon
      | cons n rest =>
        have hblend : blendGo (hlFn o) p 0 (n :: rest) =
            .error .typeErrorNullIndex := hcon
        have := blendGo_error (hlFn o) p (n :: rest) 0 .typeErrorNullIndex hblend
        cases this

/-- Witness for C10 at the state reached by one `tweenStyle` prologue step
from the initial state. -/
theorem c10_witness :
    (∀ p : ℚ, (⟨some 0, some 0, 1⟩ : TState ℕ).styleProgress = some p →
      (⟨some 0, some 0, 1⟩ : TState ℕ).oldStyle ≠ none) ∧
    (∀ (hlFn : ℕ → List TokC) (newH : List TokC),
      highlightedExc (⟨some 0, some 0, 1⟩ : TState ℕ).styleProgress newH
          ((⟨some 0, some 0, 1⟩ : TState ℕ).oldStyle.map hlFn) ≠
        .error .typeErrorNullIndex) :=
  c10_transition_invariant 0 ⟨some 0, some 0, 1⟩
    (Relation.ReflTransGen.single (TweenStep.start ⟨none, none, 0⟩ 1))
